import Mathlib

/-!
Verification of the Castor reconciliation / drift-detection / snapshot-export
engine (`src/castor/repo.py`) against its natural-language specification.

The Python source is shallowly embedded: the manifest (`Castorfile`) is a list
of targets, the git capability (clone / fetch / checkout / current commit /
ref listing / archive / submodule listing) is a state record consumed by pure
functions, and files are modelled as strings of characters.  Every definition
below is translated from the Python source, except the definitions that render
a spec sentence for comparison, which carry a `spec_` marker and say so.
-/

namespace Castor

/-! ### Character and string ordering

Python compares strings lexicographically by code point.  Lean's built-in
`String` order is iterator-based and does not reduce under `decide`, so we
use an executable code-point comparison and prove it equivalent to the
mathlib order on `String`. -/

/-- Lexicographic strict comparison of char lists by code point,
matching Python string comparison. -/
def listLtB : List Char → List Char → Bool
  | [], [] => false
  | [], _ :: _ => true
  | _ :: _, [] => false
  | a :: as, b :: bs => Nat.blt a.toNat b.toNat || (a.toNat == b.toNat && listLtB as bs)

theorem charEq_iff (a b : Char) : a = b ↔ a.toNat = b.toNat := by
  constructor
  · intro h; rw [h]
  · intro h
    exact Char.eq_of_val_eq (UInt32.eq_of_val_eq (Fin.eq_of_val_eq h))

theorem listLtB_iff : ∀ (xs ys : List Char), listLtB xs ys = true ↔ xs < ys
  | [], [] => by
    simp only [listLtB, Bool.false_eq_true, false_iff]
    intro h
    cases h
  | [], b :: bs => by
    simp only [listLtB, true_iff]
    exact List.Lex.nil
  | a :: as, [] => by
    simp only [listLtB, Bool.false_eq_true, false_iff]
    intro h
    cases h
  | a :: as, b :: bs => by
    simp only [listLtB, Bool.or_eq_true, Bool.and_eq_true, Nat.blt_eq, beq_iff_eq]
    constructor
    · rintro (h | ⟨he, h⟩)
      · exact List.Lex.rel h
      · rw [show a = b from (charEq_iff a b).2 he] at *
        exact List.Lex.cons ((listLtB_iff as bs).1 h)
    · intro h
      cases h with
      | rel h => exact Or.inl h
      | cons h => exact Or.inr ⟨rfl, (listLtB_iff as bs).2 h⟩

/-- Boolean string comparison used wherever the Python source sorts by a
string key (`sorted(...)`). -/
def strLe (a b : String) : Bool := !(listLtB b.data a.data)

theorem strLe_iff (a b : String) : strLe a b = true ↔ a ≤ b := by
  rw [show a ≤ b ↔ a.toList ≤ b.toList from String.le_iff_toList_le, ← not_lt, ← listLtB_iff]
  show (!(listLtB b.data a.data)) = true ↔ ¬ listLtB b.data a.data = true
  cases hx : listLtB b.data a.data <;> simp

theorem strLe_total (a b : String) : strLe a b = true ∨ strLe b a = true := by
  rw [strLe_iff, strLe_iff]
  exact le_total a b

theorem strLe_trans {a b c : String} (h1 : strLe a b = true) (h2 : strLe b c = true) :
    strLe a c = true := by
  rw [strLe_iff] at *
  exact le_trans h1 h2

instance : IsTotal String (fun a b => strLe a b = true) := ⟨strLe_total⟩

instance : IsTrans String (fun a b => strLe a b = true) := ⟨fun _ _ _ => strLe_trans⟩

theorem lex_append_left_iff (p : List Char) (x y : List Char) :
    (p ++ x < p ++ y) ↔ x < y := by
  induction p with
  | nil => rfl
  | cons c p ih =>
    constructor
    · intro h
      cases h with
      | rel h => exact absurd h (lt_irrefl c)
      | cons h => exact ih.1 h
    · intro h
      exact List.Lex.cons (ih.2 h)

/-- Appending a common left part preserves the string order; sorting paths
that share a fixed root therefore sorts their suffixes. -/
theorem str_append_le_iff (p a b : String) : p ++ a ≤ p ++ b ↔ a ≤ b := by
  rw [show p ++ a ≤ p ++ b ↔ (p ++ a).toList ≤ (p ++ b).toList from String.le_iff_toList_le,
    show a ≤ b ↔ a.toList ≤ b.toList from String.le_iff_toList_le, ← not_lt, ← not_lt]
  show ¬ (p ++ b).data < (p ++ a).data ↔ _
  rw [String.data_append, String.data_append, lex_append_left_iff]
  rfl

theorem str_append_assoc (a b c : String) : a ++ b ++ c = a ++ (b ++ c) := by
  apply String.ext
  simp [String.data_append]

theorem str_append_left_cancel {p a b : String} (h : p ++ a = p ++ b) : a = b := by
  apply String.ext
  have := congrArg String.data h
  rw [String.data_append, String.data_append] at this
  exact List.append_cancel_left this

/-- Python's `s.startswith(p)`. -/
def strStartsWith (s p : String) : Bool := p.data.isPrefixOf s.data

theorem strStartsWith_iff (s p : String) : strStartsWith s p = true ↔ p.data <+: s.data := by
  exact List.isPrefixOf_iff_prefix

theorem strStartsWith_append (p rest : String) : strStartsWith (p ++ rest) p = true := by
  rw [strStartsWith_iff, String.data_append]
  exact List.prefix_append p.data rest.data

/-! ### Python text primitives

`ensure_line_in_file` opens the file in text mode, so `readlines()` sees the
content through universal-newline translation (`'\r\n'` and a lone `'\r'`
become `'\n'`) and then splits after every newline, keeping the terminators;
lines are compared with `str.strip()`; the append happens in text mode on a
POSIX system, hence writes the argument bytes verbatim.  We model file
contents as `String` and implement those primitives on the underlying
character list. -/

/-- Characters removed by Python's `str.strip()` with no argument. -/
def pyIsSpace (c : Char) : Bool :=
  c == ' ' || c == '\t' || c == '\n' || c == '\r' || c == '\x0b' || c == '\x0c'

/-- Python `str.strip()` on a character list. -/
def stripChars (xs : List Char) : List Char :=
  ((xs.dropWhile pyIsSpace).reverse.dropWhile pyIsSpace).reverse

/-- Helper for `readlines`: split after every newline, keeping terminators.
`acc` holds the (reversed) characters of the current unfinished line. -/
def linesAux : List Char → List Char → List (List Char)
  | [], [] => []
  | [], acc => [acc.reverse]
  | c :: cs, acc =>
    if c == '\n' then (acc.reverse ++ ['\n']) :: linesAux cs []
    else linesAux cs (c :: acc)

/-- Python universal newlines: reading a file in text mode translates
`'\r\n'` and a lone `'\r'` to `'\n'` before the data reaches `readlines`. -/
def translateNewlines : List Char → List Char
  | [] => []
  | [c] => if c == '\r' then ['\n'] else [c]
  | c :: d :: cs =>
    if c == '\r' then
      if d == '\n' then '\n' :: translateNewlines cs
      else '\n' :: translateNewlines (d :: cs)
    else c :: translateNewlines (d :: cs)

/-- Python `f.readlines()` of a whole file opened in text mode:
universal-newline translation followed by splitting after every newline. -/
def pyReadLines (content : List Char) : List (List Char) :=
  linesAux (translateNewlines content) []

/-- Whether a character list ends with a newline (Python `l.endswith('\n')`). -/
def endsWithLF (xs : List Char) : Bool := xs.getLast? == some '\n'

/-- The line-matched early-return test of `ensure_line_in_file`: some existing
line equals the requested line after stripping. -/
def lineFound (content line : List Char) : Bool :=
  (pyReadLines content).any (fun l => stripChars l == stripChars line)

/-- Core of `ensure_line_in_file` on character lists, translated from the
source: return unchanged when a stripped-equal line exists; otherwise append,
inserting one newline when the (non-empty) content does not end with one, and
terminating the written line when it carries no terminator of its own. -/
def ensureLineChars (content line : List Char) : List Char :=
  if lineFound content line then content
  else
    let ls := pyReadLines content
    let lastLine := ls.getLast?.getD []
    content
      ++ (if !endsWithLF lastLine && ls.length > 0 then ['\n'] else [])
      ++ line
      ++ (if !endsWithLF line then ['\n'] else [])

/-- `ensure_line_in_file` acting on a file content given as a string. -/
def ensure_line_in_file (content line : String) : String :=
  ⟨ensureLineChars content.data line.data⟩

theorem getLast?_cons_ne_nil {α : Type} (a : α) {l : List α} (h : l ≠ []) :
    (a :: l).getLast? = l.getLast? := by
  cases l with
  | nil => exact absurd rfl h
  | cons b bs => exact List.getLast?_cons_cons

theorem linesAux_noLF : ∀ (xs acc : List Char), ('\n' ∉ xs) →
    acc.reverse ++ xs ≠ [] → linesAux xs acc = [acc.reverse ++ xs]
  | [], acc, _, hne => by
    cases acc with
    | nil => simp at hne
    | cons a as => simp [linesAux]
  | c :: cs, acc, h, _ => by
    have hc : c ≠ '\n' := fun he => h (he ▸ List.mem_cons_self c cs)
    have hb : (c == '\n') = false := by simp [hc]
    have hstep : linesAux (c :: cs) acc = linesAux cs (c :: acc) := by
      simp [linesAux, hb]
    rw [hstep, linesAux_noLF cs (c :: acc)
      (fun hm => h (List.mem_cons_of_mem c hm)) (by simp)]
    simp

/-- Universal newlines in action: `readlines` splits at carriage returns
too. -/
theorem pyReadLines_universal_example :
    pyReadLines ("a\r\nb\rc\n".data) = ["a\n".data, "b\n".data, "c\n".data] := by
  decide

/-- Why `safeLine` must ban carriage returns: the append writes them raw,
the text-mode re-read splits at them, and the written line never matches
itself, so the source appends again. -/
theorem ensure_cr_not_idem :
    ensure_line_in_file (ensure_line_in_file "" "a\rb") "a\rb"
      ≠ ensure_line_in_file "" "a\rb" := by
  decide

/-- Split a character list on a separator, keeping empty pieces
(Python `str.split(sep)`). -/
def splitChar (sep : Char) : List Char → List Char → List (List Char)
  | [], acc => [acc.reverse]
  | c :: cs, acc =>
    if c == sep then acc.reverse :: splitChar sep cs []
    else splitChar sep cs (c :: acc)

/-- Python `os.path.basename`: the part after the last separator. -/
def basename (s : String) : String :=
  ⟨(splitChar '/' s.data []).getLast?.getD []⟩

inductive Target where
  | git (target repo version : String) (post_freeze : Option (List String))
  | file (target source : String)
deriving DecidableEq, Repr

def Target.path : Target → String
  | .git t _ _ _ => t
  | .file t _ => t

def Target.is_git : Target → Bool
  | .git _ _ _ _ => true
  | .file _ _ => false

/-- One entry of `repo.refs`: its name, the commit it points at, and whether
it is a `git.TagReference`. -/
structure RefInfo where
  name : String
  commit : String
  is_tag : Bool
deriving DecidableEq, Repr

/-- State of one git checkout as seen through the git capability. -/
structure RepoState where
  head_commit : String
  refs : List RefInfo
  head_tree : List (String × String)
  submodules : List String
deriving DecidableEq, Repr

/-- `Castor.target_lodge_path`: the `target` field starts with `/`, so
`path.join(root, 'lodge', target[1:])` is `root ++ "/lodge" ++ target`. -/
def target_lodge_path (root tpath : String) : String := root ++ "/lodge" ++ tpath

/-- `Castor.target_dam_path`. -/
def target_dam_path (root tpath : String) : String := root ++ "/dam" ++ tpath

/-- `Castor.git_targets`: the git entries of the manifest, in manifest
order. -/
def git_targets (lodge : List Target) : List Target := lodge.filter Target.is_git

/-- An element of the `to_explore` work queue of
`git_targets_with_submodules`: either a manifest git target or a submodule
pseudo-target carrying only its computed target path. -/
inductive ExpTarget where
  | declared (t : Target)
  | discovered (tpath : String)
deriving DecidableEq, Repr

def ExpTarget.path : ExpTarget → String
  | .declared t => t.path
  | .discovered p => p

/-- The `for target in to_explore: to_explore.append(...)` work queue:
process the element at index `i`, appending the submodule pseudo-targets of
its checkout (whose target path is the parent target path extended by the
submodule's relative path).  `fuel` bounds the number of processed elements;
`none` reports exhaustion (the Python loop would still be running). -/
def process_queue (repos : String → RepoState) :
    Nat → List ExpTarget → Nat → Option (List ExpTarget)
  | 0, acc, i => if i < acc.length then none else some acc
  | fuel + 1, acc, i =>
    if h : i < acc.length then
      process_queue repos fuel
        (acc ++ ((repos acc[i].path).submodules).map
          (fun rel => ExpTarget.discovered (acc[i].path ++ "/" ++ rel)))
        (i + 1)
    else some acc

/-- `Castor.sorted_targets`: Python's stable `sorted` by the `target` field,
modelled by a stable insertion sort on the same key. -/
def sorted_targets {α : Type} (path : α → String) (ts : List α) : List α :=
  List.insertionSort (fun a b => strLe (path a) (path b) = true) ts

/-- `Castor.git_targets_with_submodules`: expand the declared git targets
through the work queue, then yield them sorted by target path. -/
def git_targets_with_submodules (repos : String → RepoState) (lodge : List Target)
    (fuel : Nat) : Option (List ExpTarget) :=
  (process_queue repos fuel ((git_targets lodge).map ExpTarget.declared) 0).map
    (sorted_targets ExpTarget.path)

/-! ### Drift detection (`Castor.update_versions`) -/

/-- The ref scan of `update_versions`: walk `repo.refs` in order; on a ref
pointing at `commit`, remember its name when it is a tag, and stop with
`found` when its name equals the recorded version. -/
def scan_refs : List RefInfo → String → String → String → Bool × String
  | [], _, _, tag => (false, tag)
  | ref :: rs, commit, version, tag =>
    if ref.commit == commit then
      let tag' := if ref.is_tag then ref.name else tag
      if ref.name == version then (true, tag')
      else scan_refs rs commit version tag'
    else scan_refs rs commit version tag

/-- Per-target body of the `update_versions` loop; returns the (possibly
updated) target and whether it changed. -/
def update_target (repos : String → RepoState) : Target → Target × Bool
  | .git tpath repo version pf =>
    let commit := (repos tpath).head_commit
    if commit == version then (.git tpath repo version pf, false)
    else
      let fr := scan_refs (repos tpath).refs commit version commit
      if fr.1 then (.git tpath repo version pf, false)
      else (.git tpath repo fr.2 pf, true)
  | .file tpath source => (.file tpath source, false)

/-- `Castor.update_versions`: update every git target in place, reporting
whether any changed. -/
def update_versions (repos : String → RepoState) (lodge : List Target) :
    List Target × Bool :=
  (lodge.map (fun t => (update_target repos t).1),
    lodge.any (fun t => (update_target repos t).2))

/-! ### Target reconciliation (`Castor.apply`, `Castor.apply_git`)

`apply` builds `targets = {target_lodge_path(x): x for x in lodge}` and walks
`sorted(targets.keys())`.  The dict comprehension is modelled as sequential
insertion with overwrite. -/

/-- One step of Python dict construction: overwrite the value of an existing
key, else append a new binding. -/
def upsert (d : List (String × Target)) (k : String) (t : Target) :
    List (String × Target) :=
  if d.any (fun e => e.1 == k) then d.map (fun e => if e.1 == k then (k, t) else e)
  else d ++ [(k, t)]

/-- The `targets` dict of `Castor.apply`, keyed by lodge path. -/
def build_targets (root : String) (lodge : List Target) : List (String × Target) :=
  lodge.foldl (fun d t => upsert d (target_lodge_path root t.path) t) []

def dict_find (d : List (String × Target)) (k : String) : Option Target :=
  (d.find? (fun e => e.1 == k)).map (fun e => e.2)

/-- The key sequence `sorted(targets.keys())` walked by `Castor.apply`. -/
def apply_order (root : String) (lodge : List Target) : List String :=
  List.insertionSort (fun a b => strLe a b = true)
    ((build_targets root lodge).map (fun e => e.1))

/-- The sequence of targets processed by `Castor.apply`, in processing
order. -/
def apply_sequence (root : String) (lodge : List Target) : List Target :=
  (apply_order root lodge).filterMap (dict_find (build_targets root lodge))

/-- Errors a `repo.py` call can surface: the single user-facing
`CastorException`, an uncaught `GitCommandError` from the git layer, or an
uncaught `json.JSONDecodeError` from `json.load`. -/
inductive PyErr where
  | castor (msg : String)
  | gitCommand
  | jsonDecode
deriving DecidableEq, Repr

def PyErr.is_castor : PyErr → Bool
  | .castor _ => true
  | _ => false

/-- Outcome of the git-capability calls `Castor.apply_git` makes for one
target, as a branch oracle: which of the underlying operations succeed. -/
structure GitEnv where
  path_exists : Bool
  clone_ok : Bool
  has_dot_git : Bool
  checkout_ok : Bool
  fetch_ok : Bool
  checkout_after_fetch_ok : Bool
  head_detached : Bool
  pull_ok : Bool
deriving DecidableEq, Repr

/-- External git operations, recorded as a trace by the `apply_git` model. -/
inductive GitOp where
  | clone
  | checkout
  | fetch
  | pull
deriving DecidableEq, Repr, BEq

/-- Tail of `apply_git` after a successful checkout: pull from origin unless
the head is detached. -/
def apply_git_pull (e : GitEnv) (tr : List GitOp) : Except PyErr Unit × List GitOp :=
  if e.head_detached then (.ok (), tr)
  else if e.pull_ok then (.ok (), tr ++ [.pull])
  else (.error .gitCommand, tr ++ [.pull])

/-- Checkout phase of `apply_git`: try `checkout(version)`; on failure fetch
origin once and retry; on a second failure raise the user-facing error. -/
def apply_git_checkout (e : GitEnv) (tr : List GitOp) : Except PyErr Unit × List GitOp :=
  if e.checkout_ok then apply_git_pull e (tr ++ [.checkout])
  else if !e.fetch_ok then (.error .gitCommand, tr ++ [.checkout, .fetch])
  else if e.checkout_after_fetch_ok then apply_git_pull e (tr ++ [.checkout, .fetch, .checkout])
  else (.error (.castor "Could not checkout version"), tr ++ [.checkout, .fetch, .checkout])

/-- `Castor.apply_git`: clone missing targets (raising the user-facing error
when the clone fails), reject existing paths without `.git`, then converge to
the declared version. -/
def apply_git (e : GitEnv) : Except PyErr Unit × List GitOp :=
  if !e.path_exists then
    if e.clone_ok then apply_git_checkout e [.clone]
    else (.error (.castor "Unable to clone"), [.clone])
  else if !e.has_dot_git then (.error (.castor "is not a git root"), [])
  else apply_git_checkout e []

/-! ### Exclusion registry (`Castor.ignore_sub_repos`, `Castor.ignore_files`)

Exclude files are modelled as a total map from file path to content; every
`ensure_line_in_file` call touches exactly one path. -/

/-- Whether an absolute path lies strictly inside the dam directory. -/
def is_under_dam (root p : String) : Bool := strStartsWith p (root ++ "/dam/")

/-- Whether an absolute path lies strictly inside the lodge directory. -/
def is_under_lodge (root p : String) : Bool := strStartsWith p (root ++ "/lodge/")

def fs_write (fs : String → Option String) (p : String) (v : Option String) :
    String → Option String :=
  fun q => if q == p then v else fs q

/-- `rmtree(self.dam_path)` (guarded by existence in the source; deleting an
absent tree is the same map). -/
def dam_delete (root : String) (fs : String → Option String) : String → Option String :=
  fun q => if is_under_dam root q then none else fs q

/-- Extraction of one archived committed tree into a dam target, skipping
members whose basename is `.gitignore`. -/
def tar_extract (damTarget : String) (tree : List (String × String))
    (fs : String → Option String) : String → Option String :=
  tree.foldl (fun fs e =>
    if basename e.1 == ".gitignore" then fs
    else fs_write fs (damTarget ++ "/" ++ e.1) (some e.2)) fs

/-- The git loop of `gather_dam`: archive-and-extract every expanded git
target's committed tree. -/
def git_extract_all (root : String) (repos : String → RepoState)
    (gts : List ExpTarget) (fs : String → Option String) : String → Option String :=
  gts.foldl (fun fs t =>
    tar_extract (target_dam_path root t.path) (repos t.path).head_tree fs) fs

/-- The file loop of `gather_dam`: copy each file target's source (resolved
against the repository root) to its dam path, in sorted target order. -/
def file_copy_all (root : String) (lodge : List Target)
    (fs : String → Option String) : String → Option String :=
  (sorted_targets Target.path lodge).foldl (fun fs t =>
    match t with
    | .file tpath src => fs_write fs (target_dam_path root tpath) (fs (root ++ "/" ++ src))
    | .git _ _ _ _ => fs) fs

/-- `Castor.gather_dam`: destroy the dam, extract every expanded git target
from its committed tree, then copy the file targets.  `none` when the
submodule work queue runs out of fuel. -/
def gather_dam (root : String) (repos : String → RepoState) (lodge : List Target)
    (fuel : Nat) (fs : String → Option String) : Option (String → Option String) :=
  match git_targets_with_submodules repos lodge fuel with
  | none => none
  | some gts =>
    some (file_copy_all root lodge (git_extract_all root repos gts (dam_delete root fs)))

/-! ### Freeze (`Castor.freeze`) -/

/-- One entry of `repo.index.diff(None)`. -/
structure DiffEntry where
  a_path : Option String
  b_path : Option String
deriving DecidableEq, Repr

/-- The `path_in_dam` helper of `freeze`:
`path.join(root, p).startswith(path.join(dam_path, ''))`. -/
def path_in_dam (root p : String) : Bool :=
  strStartsWith (root ++ "/" ++ p) (root ++ "/dam" ++ "/")

/-- The `is_interesting` test of `freeze`: one endpoint of the diff entry
lies under the dam. -/
def diff_interesting (root : String) (d : DiffEntry) : Bool :=
  (match d.b_path with | some p => path_in_dam root p | none => false)
    || (match d.a_path with | some p => path_in_dam root p | none => false)

/-- The set of paths `freeze` hands to `repo.git.add`: the Castorfile, both
endpoints of every diff entry touching the dam, and every untracked file
under the dam. -/
def freeze_staged (root : String) (diffs : List DiffEntry)
    (untracked : List String) : List String :=
  "Castorfile" ::
    (diffs.foldr (fun d acc =>
      if diff_interesting root d then d.a_path.toList ++ d.b_path.toList ++ acc
      else acc) [])
    ++ untracked.filter (fun p => path_in_dam root p)

/-- The guard of the persistence block in `Castor.freeze`, verbatim from the
source: `if changed or True:`. -/
def freeze_guard (changed : Bool) : Bool := changed || true

/-- Externally visible effects of one `freeze` call. -/
structure FreezeFX where
  gathered_dam : Bool
  wrote_castorfile : Bool
  staged : List String
  made_commit : Bool
deriving DecidableEq, Repr

/-- `Castor.freeze`: run drift detection, and behind `freeze_guard` rebuild
the dam, write the Castorfile and stage the affected paths.  `freeze` never
calls `commit`. -/
def freeze (repos : String → RepoState) (lodge : List Target) (root : String)
    (diffs : List DiffEntry) (untracked : List String) : List Target × FreezeFX :=
  let uv := update_versions repos lodge
  if freeze_guard uv.2 then
    (uv.1,
      { gathered_dam := true, wrote_castorfile := true,
        staged := freeze_staged root diffs untracked, made_commit := false })
  else
    (uv.1,
      { gathered_dam := false, wrote_castorfile := false,
        staged := [], made_commit := false })

/-! ### Repository validation (`validate_repo`, `validate_castorfile`,
`Castor.__init__`) -/

/-- Observable facts about a candidate repository root. -/
structure RootEnv where
  castorfile_exists : Bool
  castorfile_is_file : Bool
  git_dir_exists : Bool
  git_dir_is_dir : Bool
  castorfile_is_json : Bool
  castorfile_schema_ok : Bool
  git_repo_ok : Bool
deriving DecidableEq, Repr

/-- `validate_castorfile`: `json.load` runs outside the `try`, so a file that
is not valid JSON raises `json.JSONDecodeError` instead of returning `False`;
only `jsonschema.ValidationError` is caught. -/
def validate_castorfile (e : RootEnv) : Except PyErr Bool :=
  if !e.castorfile_is_json then .error .jsonDecode
  else .ok e.castorfile_schema_ok

/-- `validate_repo`: `.ok true` models returning the Castorfile handle,
`.ok false` models returning `None`. -/
def validate_repo (e : RootEnv) : Except PyErr Bool :=
  if e.castorfile_exists && e.castorfile_is_file
      && e.git_dir_exists && e.git_dir_is_dir then
    match validate_castorfile e with
    | .error err => .error err
    | .ok false => .ok false
    | .ok true => .ok e.git_repo_ok
  else .ok false

/-- `Castor.__init__`: raise the user-facing error when `validate_repo`
returns `None`; propagate whatever `validate_repo` itself raises. -/
def castor_new (e : RootEnv) : Except PyErr Unit :=
  match validate_repo e with
  | .error err => .error err
  | .ok false => .error (.castor "is not a valid Castor root")
  | .ok true => .ok ()

/-- Whether a call outcome is the user-facing `CastorException`. -/
def is_castor_result : Except PyErr Unit → Bool
  | .error err => err.is_castor
  | .ok _ => false

/-! ### Claim theorems -/

/-- C2: the claim says freeze persists the Castorfile and rebuilds the dam
only when drift detection changed some version.  The source guard is
`if changed or True:`, so freeze rebuilds and writes even when
`update_versions` reports no change: on a manifest whose single git target is
already at its recorded commit, `update_versions` returns `False`, yet
`freeze` still gathers the dam and writes the Castorfile. -/
theorem c2_freeze_ignores_changed :
    (update_versions (fun _ => ⟨"c0", [], [], []⟩) [Target.git "/app" "r" "c0" none]).2 = false
    ∧ (freeze (fun _ => ⟨"c0", [], [], []⟩) [Target.git "/app" "r" "c0" none]
        "/root" [] []).2.gathered_dam = true
    ∧ (freeze (fun _ => ⟨"c0", [], [], []⟩) [Target.git "/app" "r" "c0" none]
        "/root" [] []).2.wrote_castorfile = true
    ∧ ∀ changed : Bool, freeze_guard changed = true := by
  refine ⟨by decide, by decide, by decide, ?_⟩
  intro changed
  cases changed <;> decide

/-- C7: the claim says any root with a missing Castorfile, an invalid
manifest, or no `.git` directory makes the constructor raise the single
user-facing error and never anything else.  A Castorfile that is not valid
JSON is an invalid manifest, but `json.load` runs outside the `try` in
`validate_castorfile`, so the constructor propagates `json.JSONDecodeError`
instead of `CastorException`. -/
theorem c7_invalid_json_escapes :
    castor_new ⟨true, true, true, true, false, false, false⟩ = .error .jsonDecode
    ∧ PyErr.jsonDecode.is_castor = false
    ∧ is_castor_result (castor_new ⟨false, false, true, true, true, true, true⟩) = true
    ∧ is_castor_result (castor_new ⟨true, true, false, false, true, true, true⟩) = true
    ∧ is_castor_result (castor_new ⟨true, true, true, true, true, false, true⟩) = true := by
  refine ⟨rfl, rfl, rfl, rfl, rfl⟩

/-- C3: `apply_git` raises the user-facing `CastorException` exactly when the
target is absent and the clone fails, when the target exists without `.git`,
or when checkout fails both before and after the single fetch from origin
(the fetch itself succeeding); it fetches at most once and attempts checkout
at most twice. -/
theorem c3_apply_git_errors (e : GitEnv) :
    (is_castor_result (apply_git e).1 = true ↔
      ((e.path_exists = false ∧ e.clone_ok = false)
        ∨ (e.path_exists = true ∧ e.has_dot_git = false)
        ∨ ((e.path_exists = false → e.clone_ok = true)
            ∧ (e.path_exists = true → e.has_dot_git = true)
            ∧ e.checkout_ok = false ∧ e.fetch_ok = true
            ∧ e.checkout_after_fetch_ok = false)))
    ∧ (apply_git e).2.count GitOp.fetch ≤ 1
    ∧ (apply_git e).2.count GitOp.checkout ≤ 2 := by
  obtain ⟨p, c, d, o1, f, o2, det, pl⟩ := e
  cases p <;> cases c <;> cases d <;> cases o1 <;> cases f <;> cases o2 <;> cases det
    <;> cases pl <;> decide

/-- Unfolding of the `update_versions` loop body on a git target. -/
theorem update_target_git (repos : String → RepoState) (tp rp v : String)
    (pf : Option (List String)) :
    update_target repos (Target.git tp rp v pf)
      = (if ((repos tp).head_commit == v) = true then (Target.git tp rp v pf, false)
        else if (scan_refs (repos tp).refs (repos tp).head_commit v
            (repos tp).head_commit).1 = true
          then (Target.git tp rp v pf, false)
          else (Target.git tp rp
            (scan_refs (repos tp).refs (repos tp).head_commit v
              (repos tp).head_commit).2 pf, true)) := rfl

/-- C10: `update_versions` preserves the number and order of manifest
entries, leaves every file target untouched, and changes at most the
`version` field of a git target. -/
theorem c10_update_versions_frame (repos : String → RepoState) (lodge : List Target) :
    (update_versions repos lodge).1.length = lodge.length
    ∧ ∀ (i : Nat) (t : Target), lodge[i]? = some t →
        ((∀ tp src, t = Target.file tp src → (update_versions repos lodge).1[i]? = some t)
          ∧ (∀ tp rp v pf, t = Target.git tp rp v pf →
              ∃ v', (update_versions repos lodge).1[i]? = some (Target.git tp rp v' pf))) := by
  constructor
  · show (lodge.map _).length = lodge.length
    exact List.length_map lodge _
  · intro i t ht
    have hmap : (update_versions repos lodge).1[i]?
        = (lodge[i]?).map (fun t => (update_target repos t).1) := by
      show (lodge.map _)[i]? = _
      exact List.getElem?_map _ lodge i
    constructor
    · intro tp src hfile
      rw [hmap, ht, hfile]
      rfl
    · intro tp rp v pf hgit
      rw [hmap, ht, hgit]
      show ∃ v', some (update_target repos (Target.git tp rp v pf)).1
        = some (Target.git tp rp v' pf)
      rw [update_target_git]
      by_cases h1 : ((repos tp).head_commit == v) = true
      · rw [if_pos h1]
        exact ⟨v, rfl⟩
      · rw [if_neg h1]
        by_cases h2 : (scan_refs (repos tp).refs (repos tp).head_commit v
            (repos tp).head_commit).1 = true
        · rw [if_pos h2]
          exact ⟨v, rfl⟩
        · rw [if_neg h2]
          exact ⟨(scan_refs (repos tp).refs (repos tp).head_commit v
            (repos tp).head_commit).2, rfl⟩

/-- C10 witness: the frame theorem applied to a one-entry manifest. -/
theorem c10_update_versions_frame_witness :
    (update_versions (fun _ => ⟨"c", [], [], []⟩) [Target.file "/f" "s"]).1[0]?
      = some (Target.file "/f" "s") :=
  ((c10_update_versions_frame (fun _ => ⟨"c", [], [], []⟩) [Target.file "/f" "s"]).2
    0 (Target.file "/f" "s") rfl).1 "/f" "s" rfl

/-- The replacement version claimed by the spec for a drifted target: the
name of the last tag (in ref-enumeration order) pointing at the current
commit, or the raw commit id when no tag points at it.  Stated from the
spec's words, to be compared with what `scan_refs` computes. -/
def spec_new_version (r : RepoState) : String :=
  match (r.refs.filter (fun ref => ref.is_tag && ref.commit == r.head_commit)).getLast? with
  | some ref => ref.name
  | none => r.head_commit

theorem scan_refs_found_iff : ∀ (rs : List RefInfo) (commit version tag : String),
    (scan_refs rs commit version tag).1 = true
      ↔ ∃ r ∈ rs, r.commit = commit ∧ r.name = version
  | [], commit, version, tag => by simp [scan_refs]
  | ref :: rs, commit, version, tag => by
    by_cases hcm : (ref.commit == commit) = true
    · by_cases hnm : (ref.name == version) = true
      · rw [show scan_refs (ref :: rs) commit version tag
            = (true, if ref.is_tag then ref.name else tag) by simp [scan_refs, hcm, hnm]]
        simp only [true_iff]
        exact ⟨ref, List.mem_cons_self _ _, beq_iff_eq.1 hcm, beq_iff_eq.1 hnm⟩
      · rw [show scan_refs (ref :: rs) commit version tag
            = scan_refs rs commit version (if ref.is_tag then ref.name else tag) by
          simp [scan_refs, hcm, hnm]]
        rw [scan_refs_found_iff rs commit version _]
        constructor
        · rintro ⟨r, hr, h1, h2⟩
          exact ⟨r, List.mem_cons_of_mem _ hr, h1, h2⟩
        · rintro ⟨r, hr, h1, h2⟩
          rcases List.mem_cons.1 hr with h3 | h3
          · subst h3
            exact absurd (beq_iff_eq.2 h2) (by simp [hnm])
          · exact ⟨r, h3, h1, h2⟩
    · rw [show scan_refs (ref :: rs) commit version tag
          = scan_refs rs commit version tag by simp [scan_refs, hcm]]
      rw [scan_refs_found_iff rs commit version tag]
      constructor
      · rintro ⟨r, hr, h1, h2⟩
        exact ⟨r, List.mem_cons_of_mem _ hr, h1, h2⟩
      · rintro ⟨r, hr, h1, h2⟩
        rcases List.mem_cons.1 hr with h3 | h3
        · subst h3
          exact absurd (beq_iff_eq.2 h1) (by simp [hcm])
        · exact ⟨r, h3, h1, h2⟩

theorem scan_refs_tag : ∀ (rs : List RefInfo) (commit version tag : String),
    (∀ r ∈ rs, ¬(r.commit = commit ∧ r.name = version)) →
    (scan_refs rs commit version tag).2
      = (match (rs.filter (fun ref => ref.is_tag && ref.commit == commit)).getLast? with
          | some ref => ref.name
          | none => tag)
  | [], commit, version, tag, _ => by simp [scan_refs]
  | ref :: rs, commit, version, tag, h => by
    have hrest : ∀ r ∈ rs, ¬(r.commit = commit ∧ r.name = version) :=
      fun r hr => h r (List.mem_cons_of_mem _ hr)
    by_cases hcm : (ref.commit == commit) = true
    · have hnm : (ref.name == version) = false := by
        have hnot := h ref (List.mem_cons_self _ _)
        cases hx : ref.name == version
        · rfl
        · exact absurd ⟨beq_iff_eq.1 hcm, beq_iff_eq.1 hx⟩ hnot
      rw [show scan_refs (ref :: rs) commit version tag
          = scan_refs rs commit version (if ref.is_tag then ref.name else tag) by
        simp [scan_refs, hcm, hnm]]
      rw [scan_refs_tag rs commit version _ hrest]
      by_cases htag : ref.is_tag = true
      · rw [if_pos htag]
        rw [show (ref :: rs).filter (fun r => r.is_tag && r.commit == commit)
            = ref :: rs.filter (fun r => r.is_tag && r.commit == commit) by
          rw [List.filter_cons_of_pos (by simp [htag, hcm])]]
        cases hx : (rs.filter (fun r => r.is_tag && r.commit == commit)).getLast? with
        | none =>
          have hnil : rs.filter (fun r => r.is_tag && r.commit == commit) = [] := by
            cases hy : rs.filter (fun r => r.is_tag && r.commit == commit) with
            | nil => rfl
            | cons z zs =>
              rw [hy] at hx
              have hsome : (z :: zs).getLast?.isSome = true :=
                List.getLast?_isSome.2 (by simp)
              rw [hx] at hsome
              simp at hsome
          rw [hnil]
          rfl
        | some r =>
          rw [getLast?_cons_ne_nil ref (by
            intro hy
            rw [hy] at hx
            simp at hx), hx]
      · rw [if_neg htag]
        rw [show (ref :: rs).filter (fun r => r.is_tag && r.commit == commit)
            = rs.filter (fun r => r.is_tag && r.commit == commit) by
          rw [List.filter_cons_of_neg (by simp [htag])]]
    · rw [show scan_refs (ref :: rs) commit version tag
          = scan_refs rs commit version tag by simp [scan_refs, hcm]]
      rw [scan_refs_tag rs commit version tag hrest]
      rw [show (ref :: rs).filter (fun r => r.is_tag && r.commit == commit)
          = rs.filter (fun r => r.is_tag && r.commit == commit) by
        rw [List.filter_cons_of_neg (by simp [hcm])]]

theorem scan_refs_ne : ∀ (rs : List RefInfo) (commit version tag : String),
    (scan_refs rs commit version tag).1 = false → tag ≠ version →
    (scan_refs rs commit version tag).2 ≠ version
  | [], commit, version, tag, _, htag => by simpa [scan_refs] using htag
  | ref :: rs, commit, version, tag, hfd, htag => by
    by_cases hcm : (ref.commit == commit) = true
    · by_cases hnm : (ref.name == version) = true
      · rw [show scan_refs (ref :: rs) commit version tag
            = (true, if ref.is_tag then ref.name else tag) by
          simp [scan_refs, hcm, hnm]] at hfd
        simp at hfd
      · rw [show scan_refs (ref :: rs) commit version tag
            = scan_refs rs commit version (if ref.is_tag then ref.name else tag) by
          simp [scan_refs, hcm, hnm]] at hfd ⊢
        apply scan_refs_ne rs commit version _ hfd
        by_cases htg : ref.is_tag = true
        · rw [if_pos htg]
          intro hx
          rw [hx] at hnm
          simp at hnm
        · rw [if_neg htg]
          exact htag
    · rw [show scan_refs (ref :: rs) commit version tag
          = scan_refs rs commit version tag by simp [scan_refs, hcm]] at hfd ⊢
      exact scan_refs_ne rs commit version tag hfd htag

/-- A stopped ref scan ignores everything after the matching ref. -/
theorem scan_refs_stop : ∀ (rs1 : List RefInfo) (ref : RefInfo)
    (rs2 rs2' : List RefInfo) (commit version tag : String),
    ref.commit = commit → ref.name = version →
    scan_refs (rs1 ++ ref :: rs2) commit version tag
      = scan_refs (rs1 ++ ref :: rs2') commit version tag
  | [], ref, rs2, rs2', commit, version, tag, h1, h2 => by
    have hcm : (ref.commit == commit) = true := beq_iff_eq.2 h1
    have hnm : (ref.name == version) = true := beq_iff_eq.2 h2
    simp [scan_refs, hcm, hnm]
  | r :: rs1, ref, rs2, rs2', commit, version, tag, h1, h2 => by
    by_cases hcm : (r.commit == commit) = true
    · by_cases hnm : (r.name == version) = true
      · simp [scan_refs, hcm, hnm]
      · rw [show scan_refs ((r :: rs1) ++ ref :: rs2) commit version tag
            = scan_refs (rs1 ++ ref :: rs2) commit version
              (if r.is_tag then r.name else tag) by
          simp [scan_refs, hcm, hnm]]
        rw [show scan_refs ((r :: rs1) ++ ref :: rs2') commit version tag
            = scan_refs (rs1 ++ ref :: rs2') commit version
              (if r.is_tag then r.name else tag) by
          simp [scan_refs, hcm, hnm]]
        exact scan_refs_stop rs1 ref rs2 rs2' commit version _ h1 h2
    · rw [show scan_refs ((r :: rs1) ++ ref :: rs2) commit version tag
          = scan_refs (rs1 ++ ref :: rs2) commit version tag by simp [scan_refs, hcm]]
      rw [show scan_refs ((r :: rs1) ++ ref :: rs2') commit version tag
          = scan_refs (rs1 ++ ref :: rs2') commit version tag by simp [scan_refs, hcm]]
      exact scan_refs_stop rs1 ref rs2 rs2' commit version tag h1 h2

theorem map_eq_self_iff {α : Type} (f : α → α) (l : List α) :
    l.map f = l ↔ ∀ t ∈ l, f t = t := by
  induction l with
  | nil => simp
  | cons a l ih =>
    simp only [List.map_cons, List.cons.injEq, List.mem_cons, forall_eq_or_imp, ih]

/-- The per-target change flag is accurate: set exactly when the target was
replaced by a different value. -/
theorem update_target_flag (repos : String → RepoState) (t : Target) :
    (update_target repos t).2 = true ↔ (update_target repos t).1 ≠ t := by
  cases t with
  | file tp src => simp [update_target]
  | git tp rp v pf =>
    rw [update_target_git]
    by_cases h1 : ((repos tp).head_commit == v) = true
    · rw [if_pos h1]
      simp
    · rw [if_neg h1]
      by_cases h2 : (scan_refs (repos tp).refs (repos tp).head_commit v
          (repos tp).head_commit).1 = true
      · rw [if_pos h2]
        simp
      · rw [if_neg h2]
        simp only [true_iff, ne_eq, Target.git.injEq, true_and, and_true]
        have hne : (scan_refs (repos tp).refs (repos tp).head_commit v
            (repos tp).head_commit).2 ≠ v := by
          apply scan_refs_ne _ _ _ _ (by
            cases hx : (scan_refs (repos tp).refs (repos tp).head_commit v
              (repos tp).head_commit).1
            · rfl
            · exact absurd hx h2)
          intro hx
          rw [hx] at h1
          simp at h1
        intro hx
        exact hne hx

/-- C1: per git target, `update_versions` leaves the target unchanged when
its checkout is at the recorded version; leaves it unchanged — and the ref
scan stops — when some ref at the current commit is named exactly the
recorded version; and otherwise rewrites the version to the last tag at that
commit in ref order, or the raw commit id when no tag points there.  The
returned flag is set iff some target changed. -/
theorem c1_update_versions (repos : String → RepoState) (lodge : List Target) :
    (∀ t ∈ lodge, ∀ tp rp v pf, t = Target.git tp rp v pf →
      (((repos tp).head_commit = v → (update_target repos t).1 = t)
        ∧ ((repos tp).head_commit ≠ v →
            (∃ r ∈ (repos tp).refs, r.commit = (repos tp).head_commit ∧ r.name = v) →
            (update_target repos t).1 = t)
        ∧ ((repos tp).head_commit ≠ v →
            (∀ r ∈ (repos tp).refs, ¬(r.commit = (repos tp).head_commit ∧ r.name = v)) →
            (update_target repos t).1 = Target.git tp rp (spec_new_version (repos tp)) pf)))
    ∧ (∀ (rs1 : List RefInfo) (ref : RefInfo) (rs2 rs2' : List RefInfo)
        (commit version tag : String), ref.commit = commit → ref.name = version →
        scan_refs (rs1 ++ ref :: rs2) commit version tag
          = scan_refs (rs1 ++ ref :: rs2') commit version tag)
    ∧ ((update_versions repos lodge).2 = true ↔ (update_versions repos lodge).1 ≠ lodge) := by
  refine ⟨?_, scan_refs_stop, ?_⟩
  · intro t _ tp rp v pf hgit
    subst hgit
    refine ⟨?_, ?_, ?_⟩
    · intro hcm
      rw [update_target_git, if_pos (beq_iff_eq.2 hcm)]
    · intro hcm hex
      rw [update_target_git, if_neg (by simp [hcm]), if_pos ?_]
      rw [scan_refs_found_iff]
      exact hex
    · intro hcm hnone
      rw [update_target_git, if_neg (by simp [hcm]), if_neg ?_]
      · rw [scan_refs_tag _ _ _ _ hnone]
        rfl
      · rw [scan_refs_found_iff]
        push_neg
        intro r hr h1
        exact fun h2 => hnone r hr ⟨h1, h2⟩
  · show (lodge.any fun t => (update_target repos t).2) = true
      ↔ (lodge.map fun t => (update_target repos t).1) ≠ lodge
    rw [List.any_eq_true]
    rw [show ((lodge.map fun t => (update_target repos t).1) ≠ lodge)
        ↔ ¬ ((lodge.map fun t => (update_target repos t).1) = lodge) from Iff.rfl]
    rw [map_eq_self_iff]
    push_neg
    constructor
    · rintro ⟨t, ht, hflag⟩
      exact ⟨t, ht, (update_target_flag repos t).1 hflag⟩
    · rintro ⟨t, ht, hne⟩
      exact ⟨t, ht, (update_target_flag repos t).2 hne⟩

/-- C1 witness: a target already at its recorded commit is returned
unchanged, and the change-flag characterization holds at that instance. -/
theorem c1_update_versions_witness :
    ((update_versions (fun _ => ⟨"v", [], [], []⟩) [Target.git "/a" "r" "v" none]).2 = true
      ↔ (update_versions (fun _ => ⟨"v", [], [], []⟩)
          [Target.git "/a" "r" "v" none]).1 ≠ [Target.git "/a" "r" "v" none])
    ∧ (update_target (fun _ => ⟨"v", [], [], []⟩) (Target.git "/a" "r" "v" none)).1
        = Target.git "/a" "r" "v" none :=
  ⟨(c1_update_versions (fun _ => ⟨"v", [], [], []⟩) [Target.git "/a" "r" "v" none]).2.2,
    ((c1_update_versions (fun _ => ⟨"v", [], [], []⟩) [Target.git "/a" "r" "v" none]).1
      (Target.git "/a" "r" "v" none) (List.mem_singleton.2 rfl)
      "/a" "r" "v" none rfl).1 rfl⟩

theorem mem_freeze_diff_fold (root : String) (diffs : List DiffEntry) (p : String) :
    p ∈ diffs.foldr (fun d acc =>
        if diff_interesting root d then d.a_path.toList ++ d.b_path.toList ++ acc
        else acc) []
    ↔ ∃ d ∈ diffs, diff_interesting root d = true
        ∧ (d.a_path = some p ∨ d.b_path = some p) := by
  induction diffs with
  | nil => simp
  | cons d ds ih =>
    simp only [List.foldr_cons]
    by_cases hint : diff_interesting root d = true
    · rw [if_pos hint]
      simp only [List.mem_append, ih]
      constructor
      · rintro ((h | h) | h)
        · refine ⟨d, List.mem_cons_self _ _, hint, Or.inl ?_⟩
          cases ha : d.a_path with
          | none => rw [ha] at h; simp [Option.toList] at h
          | some q =>
            rw [ha] at h
            simp only [Option.toList, List.mem_singleton] at h
            rw [h]
        · refine ⟨d, List.mem_cons_self _ _, hint, Or.inr ?_⟩
          cases hb : d.b_path with
          | none => rw [hb] at h; simp [Option.toList] at h
          | some q =>
            rw [hb] at h
            simp only [Option.toList, List.mem_singleton] at h
            rw [h]
        · obtain ⟨e, he, h1, h2⟩ := h
          exact ⟨e, List.mem_cons_of_mem _ he, h1, h2⟩
      · rintro ⟨e, he, h1, h2⟩
        rcases List.mem_cons.1 he with h3 | h3
        · subst h3
          rcases h2 with h4 | h4
          · exact Or.inl (Or.inl (by rw [h4]; simp [Option.toList]))
          · exact Or.inl (Or.inr (by rw [h4]; simp [Option.toList]))
        · exact Or.inr ⟨e, h3, h1, h2⟩
    · rw [if_neg hint]
      rw [ih]
      constructor
      · rintro ⟨e, he, h1, h2⟩
        exact ⟨e, List.mem_cons_of_mem _ he, h1, h2⟩
      · rintro ⟨e, he, h1, h2⟩
        rcases List.mem_cons.1 he with h3 | h3
        · subst h3
          exact absurd h1 hint
        · exact ⟨e, h3, h1, h2⟩

/-- C9: for working-tree diffs (whose two endpoints, when both present, name
the same path), freeze stages exactly the Castorfile, the dam-contained
modified or deleted paths reported by the diff, and the dam-contained
untracked files; and freeze creates no commit. -/
theorem c9_freeze_staging (repos : String → RepoState) (lodge : List Target)
    (root : String) (diffs : List DiffEntry) (untracked : List String)
    (hdiff : ∀ d ∈ diffs, ∀ p q, d.a_path = some p → d.b_path = some q → p = q) :
    (∀ p, p ∈ (freeze repos lodge root diffs untracked).2.staged ↔
      (p = "Castorfile"
        ∨ (path_in_dam root p = true
            ∧ ((∃ d ∈ diffs, d.a_path = some p ∨ d.b_path = some p)
                ∨ p ∈ untracked))))
    ∧ (freeze repos lodge root diffs untracked).2.made_commit = false := by
  have hguard : freeze_guard (update_versions repos lodge).2 = true := by
    unfold freeze_guard
    simp
  have hfx : (freeze repos lodge root diffs untracked).2
      = { gathered_dam := true, wrote_castorfile := true,
          staged := freeze_staged root diffs untracked, made_commit := false } := by
    unfold freeze
    rw [if_pos hguard]
  rw [hfx]
  refine ⟨?_, rfl⟩
  intro p
  show p ∈ freeze_staged root diffs untracked ↔ _
  unfold freeze_staged
  simp only [List.mem_cons, List.mem_append, mem_freeze_diff_fold, List.mem_filter]
  constructor
  · rintro ((h | ⟨d, hd, hint, hpq⟩) | ⟨hunt, hdam2⟩)
    · exact Or.inl h
    · refine Or.inr ⟨?_, Or.inl ⟨d, hd, hpq⟩⟩
      unfold diff_interesting at hint
      rcases hpq with hp | hp
      · cases hb : d.b_path with
        | none =>
          rw [hp, hb] at hint
          simpa using hint
        | some q =>
          have hq : p = q := hdiff d hd p q hp hb
          rw [hp, hb] at hint
          rcases Bool.or_eq_true_iff.1 hint with h1 | h1
          · rw [hq]
            exact h1
          · exact h1
      · cases ha : d.a_path with
        | none =>
          rw [hp, ha] at hint
          simpa using hint
        | some q =>
          have hq : q = p := hdiff d hd q p ha hp
          rw [hp, ha] at hint
          rcases Bool.or_eq_true_iff.1 hint with h1 | h1
          · exact h1
          · rw [← hq]
            exact h1
    · exact Or.inr ⟨hdam2, Or.inr hunt⟩
  · rintro (h | ⟨hdam, (⟨d, hd, hpq⟩ | hunt)⟩)
    · exact Or.inl (Or.inl h)
    · refine Or.inl (Or.inr ⟨d, hd, ?_, hpq⟩)
      unfold diff_interesting
      rcases hpq with hp | hp
      · cases hb : d.b_path with
        | none => simp [hp, hb, hdam]
        | some q =>
          have hq : p = q := hdiff d hd p q hp hb
          simp [hp, hb, ← hq, hdam]
      · simp [hp, hdam]
    · exact Or.inr ⟨hunt, hdam⟩

/-- C9 witness: a concrete freeze with one in-dam diff entry and one in-dam
plus one out-of-dam untracked file. -/
theorem c9_freeze_staging_witness :
    (∀ p, p ∈ (freeze (fun _ => ⟨"c", [], [], []⟩) [] "/r"
        [⟨some "dam/x", some "dam/x"⟩] ["dam/y", "other"]).2.staged ↔
      (p = "Castorfile"
        ∨ (path_in_dam "/r" p = true
            ∧ ((∃ d ∈ [(⟨some "dam/x", some "dam/x"⟩ : DiffEntry)],
                  d.a_path = some p ∨ d.b_path = some p)
                ∨ p ∈ ["dam/y", "other"]))))
    ∧ (freeze (fun _ => ⟨"c", [], [], []⟩) [] "/r"
        [⟨some "dam/x", some "dam/x"⟩] ["dam/y", "other"]).2.made_commit = false :=
  c9_freeze_staging (fun _ => ⟨"c", [], [], []⟩) [] "/r"
    [⟨some "dam/x", some "dam/x"⟩] ["dam/y", "other"]
    (by
      intro d hd p q hp hq
      rcases List.mem_singleton.1 hd with h
      subst h
      cases hp
      cases hq
      rfl)

theorem process_queue_grows (repos : String → RepoState) :
    ∀ (fuel : Nat) (acc : List ExpTarget) (i : Nat) (out : List ExpTarget),
    process_queue repos fuel acc i = some out → acc <+: out
  | 0, acc, i, out, h => by
    unfold process_queue at h
    by_cases hi : i < acc.length
    · rw [if_pos hi] at h
      exact Option.noConfusion h
    · rw [if_neg hi] at h
      injection h with h2
      subst h2
      exact List.prefix_rfl
  | fuel + 1, acc, i, out, h => by
    unfold process_queue at h
    by_cases hi : i < acc.length
    · rw [dif_pos hi] at h
      exact (List.prefix_append acc _).trans (process_queue_grows repos fuel _ (i + 1) out h)
    · rw [dif_neg hi] at h
      injection h with h2
      subst h2
      exact List.prefix_rfl

theorem process_queue_mem (repos : String → RepoState) :
    ∀ (fuel : Nat) (acc : List ExpTarget) (i : Nat) (out : List ExpTarget),
    process_queue repos fuel acc i = some out →
    ∀ x ∈ out, x ∈ acc ∨ ∃ y ∈ out, ∃ rel ∈ (repos y.path).submodules,
      x = ExpTarget.discovered (y.path ++ "/" ++ rel)
  | 0, acc, i, out, h, x, hx => by
    unfold process_queue at h
    by_cases hi : i < acc.length
    · rw [if_pos hi] at h
      exact Option.noConfusion h
    · rw [if_neg hi] at h
      injection h with h2
      subst h2
      exact Or.inl hx
  | fuel + 1, acc, i, out, h, x, hx => by
    unfold process_queue at h
    by_cases hi : i < acc.length
    · rw [dif_pos hi] at h
      rcases process_queue_mem repos fuel _ (i + 1) out h x hx with h2 | h2
      · rcases List.mem_append.1 h2 with h3 | h3
        · exact Or.inl h3
        · rcases List.mem_map.1 h3 with ⟨rel, hrel, hxeq⟩
          refine Or.inr ⟨acc[i], ?_, rel, hrel, hxeq.symm⟩
          exact ((List.prefix_append acc _).trans
            (process_queue_grows repos fuel _ (i + 1) out h)).mem (List.getElem_mem hi)
      · exact Or.inr h2
    · rw [dif_neg hi] at h
      injection h with h2
      subst h2
      exact Or.inl hx

theorem process_queue_closed (repos : String → RepoState) :
    ∀ (fuel : Nat) (acc : List ExpTarget) (i : Nat) (out : List ExpTarget),
    process_queue repos fuel acc i = some out →
    (∀ (j : Nat) (hj : j < acc.length), j < i →
      ∀ rel ∈ (repos acc[j].path).submodules,
        ExpTarget.discovered (acc[j].path ++ "/" ++ rel) ∈ out) →
    ∀ x ∈ out, ∀ rel ∈ (repos x.path).submodules,
      ExpTarget.discovered (x.path ++ "/" ++ rel) ∈ out
  | 0, acc, i, out, h, hdone, x, hx, rel, hrel => by
    unfold process_queue at h
    by_cases hi : i < acc.length
    · rw [if_pos hi] at h
      exact Option.noConfusion h
    · rw [if_neg hi] at h
      injection h with h2
      subst h2
      rcases List.mem_iff_getElem.1 hx with ⟨j, hj, hxe⟩
      have hji : j < i := lt_of_lt_of_le hj (le_of_not_lt hi)
      subst hxe
      exact hdone j hj hji rel hrel
  | fuel + 1, acc, i, out, h, hdone, x, hx, rel, hrel => by
    unfold process_queue at h
    by_cases hi : i < acc.length
    · rw [dif_pos hi] at h
      refine process_queue_closed repos fuel _ (i + 1) out h ?_ x hx rel hrel
      intro j hj hji rel' hrel'
      have hpre : (acc ++ ((repos acc[i].path).submodules).map
          (fun rel => ExpTarget.discovered (acc[i].path ++ "/" ++ rel))) <+: out :=
        process_queue_grows repos fuel _ (i + 1) out h
      by_cases hjlt : j < i
      · have hjlen : j < acc.length := lt_trans hjlt hi
        have hgj : (acc ++ ((repos acc[i].path).submodules).map
            (fun rel => ExpTarget.discovered (acc[i].path ++ "/" ++ rel)))[j]
            = acc[j] := List.getElem_append_left hjlen
        rw [hgj] at hrel' ⊢
        exact hdone j hjlen hjlt rel' hrel'
      · have hji2 : j = i := by omega
        subst hji2
        have hjlen : j < acc.length := hi
        have hgj : (acc ++ ((repos acc[j].path).submodules).map
            (fun rel => ExpTarget.discovered (acc[j].path ++ "/" ++ rel)))[j]
            = acc[j] := List.getElem_append_left hjlen
        rw [hgj] at hrel' ⊢
        apply hpre.mem
        apply List.mem_append.2
        apply Or.inr
        exact List.mem_map.2 ⟨rel', hrel', rfl⟩
    · rw [dif_neg hi] at h
      injection h with h2
      subst h2
      rcases List.mem_iff_getElem.1 hx with ⟨j, hj, hxe⟩
      have hji : j < i := lt_of_lt_of_le hj (le_of_not_lt hi)
      subst hxe
      exact hdone j hj hji rel hrel

theorem sorted_targets_pairwise {α : Type} (path : α → String) (ts : List α) :
    List.Pairwise (fun a b => path a ≤ path b) (sorted_targets path ts) := by
  have h := @List.sorted_insertionSort α (fun a b => strLe (path a) (path b) = true)
    (fun _ _ => inferInstance)
    ⟨fun a b => strLe_total (path a) (path b)⟩
    ⟨fun _ _ _ h1 h2 => strLe_trans h1 h2⟩ ts
  exact h.imp (fun hab => (strLe_iff _ _).1 hab)

theorem sorted_targets_perm {α : Type} (path : α → String) (ts : List α) :
    (sorted_targets path ts).Perm ts :=
  List.perm_insertionSort _ ts

/-- Every binding of the `targets` dict of `apply` maps the lodge path of its
value, and its value is a manifest entry. -/
theorem build_targets_inv (root : String) (lodge : List Target) :
    ∀ e ∈ build_targets root lodge,
      e.1 = target_lodge_path root e.2.path ∧ e.2 ∈ lodge := by
  have haux : ∀ (l : List Target) (d : List (String × Target)),
      (∀ t ∈ l, t ∈ lodge) →
      (∀ e ∈ d, e.1 = target_lodge_path root e.2.path ∧ e.2 ∈ lodge) →
      ∀ e ∈ l.foldl (fun d t => upsert d (target_lodge_path root t.path) t) d,
        e.1 = target_lodge_path root e.2.path ∧ e.2 ∈ lodge := by
    intro l
    induction l with
    | nil => intro d _ hd e he; exact hd e he
    | cons t l ih =>
      intro d hl hd e he
      refine ih _ (fun t' ht' => hl t' (List.mem_cons_of_mem _ ht')) ?_ e he
      intro e' he'
      unfold upsert at he'
      simp only [] at he'
      by_cases hfound : (d.any (fun e => e.1 == target_lodge_path root t.path)) = true
      · rw [if_pos hfound] at he'
        rcases List.mem_map.1 he' with ⟨e0, he0, he0eq⟩
        by_cases hk : (e0.1 == target_lodge_path root t.path) = true
        · rw [if_pos hk] at he0eq
          rw [← he0eq]
          exact ⟨rfl, hl t (List.mem_cons_self _ _)⟩
        · rw [if_neg hk] at he0eq
          rw [← he0eq]
          exact hd e0 he0
      · rw [if_neg hfound] at he'
        rcases List.mem_append.1 he' with h1 | h1
        · exact hd e' h1
        · rcases List.mem_singleton.1 h1 with h2
          rw [h2]
          exact ⟨rfl, hl t (List.mem_cons_self _ _)⟩
  exact haux lodge [] (fun _ h => h) (by simp)

theorem dict_find_inv (root : String) (lodge : List Target) (k : String) (t : Target)
    (h : dict_find (build_targets root lodge) k = some t) :
    k = target_lodge_path root t.path ∧ t ∈ lodge := by
  unfold dict_find at h
  cases hf : (build_targets root lodge).find? (fun e => e.1 == k) with
  | none => rw [hf] at h; exact Option.noConfusion h
  | some e =>
    rw [hf] at h
    injection h with h2
    have hkey0 := List.find?_some hf
    have hkey : (e.1 == k) = true := hkey0
    have hmem : e ∈ build_targets root lodge := List.mem_of_find?_eq_some hf
    have hinv := build_targets_inv root lodge e hmem
    subst h2
    exact ⟨(beq_iff_eq.1 hkey).symm.trans hinv.1, hinv.2⟩

/-- The processing loop of `apply` visits targets in ascending lexicographic
order of target path. -/
theorem apply_sequence_pairwise (root : String) (lodge : List Target) :
    List.Pairwise (fun a b => Target.path a ≤ Target.path b) (apply_sequence root lodge) := by
  unfold apply_sequence
  rw [List.pairwise_filterMap]
  have hsorted : List.Pairwise (fun a b : String => a ≤ b) (apply_order root lodge) := by
    unfold apply_order
    have h := List.sorted_insertionSort (fun a b : String => strLe a b = true)
      ((build_targets root lodge).map (fun e => e.1))
    exact h.imp (fun hab => (strLe_iff _ _).1 hab)
  apply hsorted.imp
  intro k k' hkk' x hx y hy
  have hxk := dict_find_inv root lodge k x hx
  have hyk := dict_find_inv root lodge k' y hy
  rw [hxk.1, hyk.1] at hkk'
  unfold target_lodge_path at hkk'
  exact (str_append_le_iff (root ++ "/lodge") _ _).1 hkk'

theorem build_targets_app (root : String) :
    ∀ (l : List Target) (d : List (String × Target)),
    (∀ t ∈ l, ∀ e ∈ d, e.1 ≠ target_lodge_path root t.path) →
    (l.map (fun t => target_lodge_path root t.path)).Nodup →
    l.foldl (fun d t => upsert d (target_lodge_path root t.path) t) d
      = d ++ l.map (fun t => (target_lodge_path root t.path, t))
  | [], d, _, _ => by simp
  | t :: l, d, hfresh, hnodup => by
    rw [List.foldl_cons]
    have hup : upsert d (target_lodge_path root t.path) t
        = d ++ [(target_lodge_path root t.path, t)] := by
      unfold upsert
      rw [if_neg]
      intro hany
      rcases List.any_eq_true.1 hany with ⟨e, he, hk⟩
      exact hfresh t (List.mem_cons_self _ _) e he (beq_iff_eq.1 hk)
    rw [hup]
    rw [List.map_cons, List.nodup_cons] at hnodup
    rw [build_targets_app root l (d ++ [(target_lodge_path root t.path, t)]) ?_ hnodup.2]
    · simp
    · intro t' ht' e he
      rcases List.mem_append.1 he with h1 | h1
      · exact hfresh t' (List.mem_cons_of_mem _ ht') e h1
      · rcases List.mem_singleton.1 h1 with h2
        rw [h2]
        intro hkeq
        apply hnodup.1
        rw [show target_lodge_path root t.path = target_lodge_path root t'.path from hkeq]
        exact List.mem_map.2 ⟨t', ht', rfl⟩

theorem filterMap_dict_self (root : String) :
    ∀ (l : List Target),
    (l.map (fun t => target_lodge_path root t.path)).Nodup →
    (l.map (fun t => target_lodge_path root t.path)).filterMap
        (dict_find (l.map (fun t => (target_lodge_path root t.path, t)))) = l
  | [], _ => rfl
  | t :: l, hnodup => by
    rw [List.map_cons, List.nodup_cons] at hnodup
    rw [List.map_cons, List.map_cons, List.filterMap_cons]
    have hhead : dict_find ((target_lodge_path root t.path, t)
        :: l.map (fun t => (target_lodge_path root t.path, t)))
        (target_lodge_path root t.path) = some t := by
      unfold dict_find
      rw [List.find?_cons_of_pos _ (by simp)]
      rfl
    rw [hhead]
    show t :: _ = t :: l
    congr 1
    have hcong : List.filterMap
        (dict_find ((target_lodge_path root t.path, t)
          :: l.map (fun t => (target_lodge_path root t.path, t))))
        (l.map (fun t => target_lodge_path root t.path))
        = List.filterMap
          (dict_find (l.map (fun t => (target_lodge_path root t.path, t))))
          (l.map (fun t => target_lodge_path root t.path)) := by
      apply List.filterMap_congr
      intro k hk
      have hneg : ¬ ((fun e : String × Target => e.1 == k)
          (target_lodge_path root t.path, t)) = true := by
        intro hbeq
        exact hnodup.1 (by
          rw [show target_lodge_path root t.path = k from beq_iff_eq.1 hbeq]
          exact hk)
      unfold dict_find
      rw [show List.find? (fun e : String × Target => e.1 == k)
          ((target_lodge_path root t.path, t)
            :: l.map (fun t => (target_lodge_path root t.path, t)))
          = List.find? (fun e : String × Target => e.1 == k)
            (l.map (fun t => (target_lodge_path root t.path, t)))
        from List.find?_cons_of_neg _ hneg]
    rw [hcong]
    exact filterMap_dict_self root l hnodup.2

theorem apply_sequence_perm (root : String) (lodge : List Target)
    (hnodup : (lodge.map Target.path).Nodup) :
    (apply_sequence root lodge).Perm lodge := by
  have hkeynodup : (lodge.map (fun t => target_lodge_path root t.path)).Nodup := by
    have hmm : lodge.map (fun t => target_lodge_path root t.path)
        = (lodge.map Target.path).map (fun p => target_lodge_path root p) := by
      rw [List.map_map]
      rfl
    rw [hmm]
    apply hnodup.map
    intro p q hpq
    unfold target_lodge_path at hpq
    exact str_append_left_cancel hpq
  have hbuild : build_targets root lodge
      = lodge.map (fun t => (target_lodge_path root t.path, t)) := by
    unfold build_targets
    rw [build_targets_app root lodge [] (by simp) hkeynodup]
    simp
  unfold apply_sequence apply_order
  rw [hbuild]
  have hkeys : (lodge.map (fun t => (target_lodge_path root t.path, t))).map (fun e => e.1)
      = lodge.map (fun t => target_lodge_path root t.path) := by
    rw [List.map_map]
    rfl
  rw [hkeys]
  have hperm := List.perm_insertionSort (fun a b : String => strLe a b = true)
    (lodge.map (fun t => target_lodge_path root t.path))
  have hfin := filterMap_dict_self root lodge hkeynodup
  have hstep := hperm.filterMap
    (dict_find (lodge.map (fun t => (target_lodge_path root t.path, t))))
  rw [hfin] at hstep
  exact hstep

/-- C8: `apply` processes the declared targets in ascending lexicographic
order of target path (and, with unique target paths, processes exactly the
declared set); `git_targets_with_submodules` yields the work-queue expansion
of the declared git targets — containing them, containing every discovered
submodule pseudo-target of its members, and nothing else — sorted in the
same ascending order of target path. -/
theorem c8_processing_order (root : String) (repos : String → RepoState)
    (lodge : List Target) (fuel : Nat) (gts : List ExpTarget)
    (hq : git_targets_with_submodules repos lodge fuel = some gts)
    (hnodup : (lodge.map Target.path).Nodup) :
    List.Pairwise (fun a b => Target.path a ≤ Target.path b) (apply_sequence root lodge)
    ∧ (apply_sequence root lodge).Perm lodge
    ∧ List.Pairwise (fun a b => ExpTarget.path a ≤ ExpTarget.path b) gts
    ∧ (∀ t ∈ git_targets lodge, ExpTarget.declared t ∈ gts)
    ∧ (∀ x ∈ gts, (∃ t ∈ git_targets lodge, x = ExpTarget.declared t)
        ∨ (∃ parent ∈ gts, ∃ rel ∈ (repos parent.path).submodules,
            x = ExpTarget.discovered (parent.path ++ "/" ++ rel)))
    ∧ (∀ x ∈ gts, ∀ rel ∈ (repos x.path).submodules,
        ExpTarget.discovered (x.path ++ "/" ++ rel) ∈ gts) := by
  obtain ⟨pre, hpre, hsort⟩ : ∃ pre,
      process_queue repos fuel ((git_targets lodge).map ExpTarget.declared) 0 = some pre
        ∧ gts = sorted_targets ExpTarget.path pre := by
    unfold git_targets_with_submodules at hq
    cases hproc : process_queue repos fuel ((git_targets lodge).map ExpTarget.declared) 0 with
    | none => rw [hproc] at hq; exact Option.noConfusion hq
    | some pre =>
      rw [hproc] at hq
      injection hq with hq2
      exact ⟨pre, rfl, hq2.symm⟩
  have hmemiff : ∀ x, x ∈ gts ↔ x ∈ pre := by
    intro x
    rw [hsort]
    exact (sorted_targets_perm ExpTarget.path pre).mem_iff
  refine ⟨apply_sequence_pairwise root lodge, apply_sequence_perm root lodge hnodup,
    ?_, ?_, ?_, ?_⟩
  · rw [hsort]
    exact sorted_targets_pairwise ExpTarget.path pre
  · intro t ht
    rw [hmemiff]
    exact (process_queue_grows repos fuel _ 0 pre hpre).mem
      (List.mem_map.2 ⟨t, ht, rfl⟩)
  · intro x hx
    rcases process_queue_mem repos fuel _ 0 pre hpre x ((hmemiff x).1 hx) with h | h
    · rcases List.mem_map.1 h with ⟨t, ht, hteq⟩
      exact Or.inl ⟨t, ht, hteq.symm⟩
    · rcases h with ⟨y, hy, rel, hrel, hxeq⟩
      exact Or.inr ⟨y, (hmemiff y).2 hy, rel, hrel, hxeq⟩
  · intro x hx rel hrel
    rw [hmemiff]
    refine process_queue_closed repos fuel _ 0 pre hpre ?_ x ((hmemiff x).1 hx) rel hrel
    intro j hj hji
    omega

/-- C8 witness: a two-target manifest with one submodule; the expansion is
computed, sorted, and covered by the theorem. -/
theorem c8_processing_order_witness :
    git_targets_with_submodules
        (fun p => if p == "/a" then ⟨"c", [], [], ["m"]⟩ else ⟨"c", [], [], []⟩)
        [Target.git "/b" "u" "v" none, Target.git "/a" "w" "v" none] 3
      = some [ExpTarget.declared (Target.git "/a" "w" "v" none),
          ExpTarget.discovered "/a/m",
          ExpTarget.declared (Target.git "/b" "u" "v" none)]
    ∧ List.Pairwise (fun a b => ExpTarget.path a ≤ ExpTarget.path b)
        [ExpTarget.declared (Target.git "/a" "w" "v" none),
          ExpTarget.discovered "/a/m",
          ExpTarget.declared (Target.git "/b" "u" "v" none)] :=
  ⟨by decide,
    (c8_processing_order "/r"
      (fun p => if p == "/a" then ⟨"c", [], [], ["m"]⟩ else ⟨"c", [], [], []⟩)
      [Target.git "/b" "u" "v" none, Target.git "/a" "w" "v" none] 3
      [ExpTarget.declared (Target.git "/a" "w" "v" none),
        ExpTarget.discovered "/a/m",
        ExpTarget.declared (Target.git "/b" "u" "v" none)]
      (by decide) (by decide)).2.2.1⟩

theorem startsWith_append_of (a b p : String) (h : strStartsWith a p = true) :
    strStartsWith (a ++ b) p = true := by
  rw [strStartsWith_iff] at h ⊢
  rw [String.data_append]
  exact h.trans (List.prefix_append a.data b.data)

theorem slash_head {p : String} (hp : strStartsWith p "/" = true) :
    ∃ t : List Char, p.data = '/' :: t := by
  rw [strStartsWith_iff] at hp
  rcases hp with ⟨t, ht⟩
  exact ⟨t, by
    rw [← ht]
    rfl⟩

/-- The dam path of a slash-rooted target, with anything appended, lies under
the dam directory. -/
theorem under_dam_dam_path_append (root p rest : String)
    (hp : strStartsWith p "/" = true) :
    is_under_dam root (target_dam_path root p ++ rest) = true := by
  rcases slash_head hp with ⟨t, ht⟩
  unfold is_under_dam target_dam_path
  rw [strStartsWith_iff]
  refine ⟨t ++ rest.data, ?_⟩
  show (root ++ "/dam/").data ++ (t ++ rest.data) = (root ++ "/dam" ++ p ++ rest).data
  simp only [String.data_append, ht]
  simp

theorem under_dam_dam_path (root p : String) (hp : strStartsWith p "/" = true) :
    is_under_dam root (target_dam_path root p) = true := by
  have h := under_dam_dam_path_append root p "" hp
  rw [show target_dam_path root p ++ "" = target_dam_path root p from
    String.ext (by simp [String.data_append])] at h
  exact h

/-- Work-queue expansion preserves slash-rooted target paths. -/
theorem process_queue_slash (repos : String → RepoState) :
    ∀ (fuel : Nat) (acc : List ExpTarget) (i : Nat) (out : List ExpTarget),
    process_queue repos fuel acc i = some out →
    (∀ x ∈ acc, strStartsWith x.path "/" = true) →
    ∀ x ∈ out, strStartsWith x.path "/" = true
  | 0, acc, i, out, h, hacc, x, hx => by
    unfold process_queue at h
    by_cases hi : i < acc.length
    · rw [if_pos hi] at h
      exact Option.noConfusion h
    · rw [if_neg hi] at h
      injection h with h2
      subst h2
      exact hacc x hx
  | fuel + 1, acc, i, out, h, hacc, x, hx => by
    unfold process_queue at h
    by_cases hi : i < acc.length
    · rw [dif_pos hi] at h
      refine process_queue_slash repos fuel _ (i + 1) out h ?_ x hx
      intro y hy
      rcases List.mem_append.1 hy with h1 | h1
      · exact hacc y h1
      · rcases List.mem_map.1 h1 with ⟨rel, _, hyeq⟩
        rw [← hyeq]
        show strStartsWith (acc[i].path ++ "/" ++ rel) "/" = true
        rw [str_append_assoc]
        exact startsWith_append_of _ _ _ (hacc acc[i] (List.getElem_mem hi))
    · rw [dif_neg hi] at h
      injection h with h2
      subst h2
      exact hacc x hx

/-- The value a tar extraction leaves at a path: untouched, or one of the
written committed-tree members. -/
theorem tar_extract_val (dt : String) :
    ∀ (tree : List (String × String)) (fs : String → Option String) (p : String),
    tar_extract dt tree fs p = fs p
      ∨ ∃ e ∈ tree, basename e.1 ≠ ".gitignore" ∧ p = dt ++ "/" ++ e.1
          ∧ tar_extract dt tree fs p = some e.2
  | [], fs, p => Or.inl rfl
  | e :: tree, fs, p => by
    have hstep : tar_extract dt (e :: tree) fs
        = tar_extract dt tree (if basename e.1 == ".gitignore" then fs
            else fs_write fs (dt ++ "/" ++ e.1) (some e.2)) := rfl
    rw [hstep]
    rcases tar_extract_val dt tree _ p with h | ⟨e', he', hgi, hpe, hval⟩
    · rw [h]
      by_cases hg : (basename e.1 == ".gitignore") = true
      · rw [if_pos hg]
        exact Or.inl rfl
      · rw [if_neg hg]
        show fs_write fs (dt ++ "/" ++ e.1) (some e.2) p = fs p ∨ _
        unfold fs_write
        by_cases hpk : (p == dt ++ "/" ++ e.1) = true
        · rw [if_pos hpk]
          refine Or.inr ⟨e, List.mem_cons_self _ _, ?_, beq_iff_eq.1 hpk, rfl⟩
          intro hgi2
          rw [hgi2] at hg
          simp at hg
        · rw [if_neg hpk]
          exact Or.inl rfl
    · exact Or.inr ⟨e', List.mem_cons_of_mem _ he', hgi, hpe, hval⟩

theorem tar_extract_congr_at (dt : String) :
    ∀ (tree : List (String × String)) (s s' : String → Option String) (q : String),
    s q = s' q → tar_extract dt tree s q = tar_extract dt tree s' q
  | [], s, s', q, h => h
  | e :: tree, s, s', q, h => by
    show tar_extract dt tree _ q = tar_extract dt tree _ q
    apply tar_extract_congr_at dt tree
    show (if (basename e.1 == ".gitignore") = true then s
        else fs_write s (dt ++ "/" ++ e.1) (some e.2)) q
      = (if (basename e.1 == ".gitignore") = true then s'
        else fs_write s' (dt ++ "/" ++ e.1) (some e.2)) q
    by_cases hg : (basename e.1 == ".gitignore") = true
    · rw [if_pos hg, if_pos hg]
      exact h
    · rw [if_neg hg, if_neg hg]
      unfold fs_write
      by_cases hpk : (q == dt ++ "/" ++ e.1) = true
      · rw [if_pos hpk, if_pos hpk]
      · rw [if_neg hpk, if_neg hpk]
        exact h

theorem git_extract_all_val (root : String) (repos : String → RepoState) :
    ∀ (gts : List ExpTarget) (fs : String → Option String) (p : String),
    git_extract_all root repos gts fs p = fs p
      ∨ ∃ t ∈ gts, ∃ e ∈ (repos t.path).head_tree, basename e.1 ≠ ".gitignore"
          ∧ p = target_dam_path root t.path ++ "/" ++ e.1
          ∧ git_extract_all root repos gts fs p = some e.2
  | [], fs, p => Or.inl rfl
  | t :: gts, fs, p => by
    have hstep : git_extract_all root repos (t :: gts) fs
        = git_extract_all root repos gts
            (tar_extract (target_dam_path root t.path) (repos t.path).head_tree fs) := rfl
    rw [hstep]
    rcases git_extract_all_val root repos gts _ p with h | ⟨t', ht', e, he, hgi, hpe, hval⟩
    · rw [h]
      rcases tar_extract_val (target_dam_path root t.path) (repos t.path).head_tree fs p
        with h2 | ⟨e, he, hgi, hpe, hval⟩
      · rw [h2]
        exact Or.inl rfl
      · exact Or.inr ⟨t, List.mem_cons_self _ _, e, he, hgi, hpe, hval⟩
    · exact Or.inr ⟨t', List.mem_cons_of_mem _ ht', e, he, hgi, hpe, hval⟩

theorem git_extract_all_congr_at (root : String) (repos : String → RepoState) :
    ∀ (gts : List ExpTarget) (s s' : String → Option String) (q : String),
    s q = s' q → git_extract_all root repos gts s q = git_extract_all root repos gts s' q
  | [], s, s', q, h => h
  | t :: gts, s, s', q, h => by
    show git_extract_all root repos gts _ q = git_extract_all root repos gts _ q
    exact git_extract_all_congr_at root repos gts _ _ q
      (tar_extract_congr_at _ _ s s' q h)

/-- The per-target step of the file-copy loop of `gather_dam`. -/
def file_copy_step (root : String) (fs : String → Option String) (t : Target) :
    String → Option String :=
  match t with
  | .file tpath src => fs_write fs (target_dam_path root tpath) (fs (root ++ "/" ++ src))
  | .git _ _ _ _ => fs

theorem file_copy_all_eq_fold (root : String) (lodge : List Target)
    (fs : String → Option String) :
    file_copy_all root lodge fs
      = (sorted_targets Target.path lodge).foldl (file_copy_step root) fs := rfl

theorem file_fold_val (root : String) :
    ∀ (l : List Target) (fs : String → Option String) (p : String),
    (∀ t ∈ l, strStartsWith t.path "/" = true) →
    (∀ tp src, Target.file tp src ∈ l → is_under_dam root (root ++ "/" ++ src) = false) →
    l.foldl (file_copy_step root) fs p = fs p
      ∨ ∃ tp src, Target.file tp src ∈ l ∧ p = target_dam_path root tp
          ∧ l.foldl (file_copy_step root) fs p = fs (root ++ "/" ++ src)
  | [], fs, p, _, _ => Or.inl rfl
  | t :: l, fs, p, hslash, hsrc => by
    rw [List.foldl_cons]
    have hslash' : ∀ t' ∈ l, strStartsWith t'.path "/" = true :=
      fun t' ht' => hslash t' (List.mem_cons_of_mem _ ht')
    have hsrc' : ∀ tp src, Target.file tp src ∈ l →
        is_under_dam root (root ++ "/" ++ src) = false :=
      fun tp src hm => hsrc tp src (List.mem_cons_of_mem _ hm)
    rcases file_fold_val root l (file_copy_step root fs t) p hslash' hsrc'
      with h | ⟨tp, src, hmem, hpe, hval⟩
    · rw [h]
      cases ht : t with
      | git a b c d =>
        rw [show file_copy_step root fs (Target.git a b c d) = fs from rfl]
        exact Or.inl rfl
      | file tpath src =>
        rw [show file_copy_step root fs (Target.file tpath src)
            = fs_write fs (target_dam_path root tpath) (fs (root ++ "/" ++ src)) from rfl]
        unfold fs_write
        by_cases hpk : (p == target_dam_path root tpath) = true
        · rw [if_pos hpk]
          exact Or.inr ⟨tpath, src, by rw [← ht]; exact List.mem_cons_self _ _,
            beq_iff_eq.1 hpk, rfl⟩
        · rw [if_neg hpk]
          exact Or.inl rfl
    · refine Or.inr ⟨tp, src, List.mem_cons_of_mem _ hmem, hpe, ?_⟩
      rw [hval]
      cases ht : t with
      | git a b c d => rfl
      | file tpath0 src0 =>
        show fs_write fs (target_dam_path root tpath0) (fs (root ++ "/" ++ src0))
            (root ++ "/" ++ src) = fs (root ++ "/" ++ src)
        unfold fs_write
        rw [if_neg]
        intro hbeq
        have hkey : is_under_dam root (target_dam_path root tpath0) = true := by
          apply under_dam_dam_path
          have := hslash t (List.mem_cons_self _ _)
          rw [ht] at this
          exact this
        have hnd := hsrc' tp src hmem
        rw [beq_iff_eq.1 hbeq] at hnd
        rw [hkey] at hnd
        exact Bool.noConfusion hnd

theorem file_fold_agree (root : String) (lodge : List Target) :
    ∀ (l : List Target) (s s' : String → Option String),
    (∀ t ∈ l, strStartsWith t.path "/" = true) →
    (∀ q, is_under_dam root q = true → s q = s' q) →
    (∀ tp src, Target.file tp src ∈ l →
      s (root ++ "/" ++ src) = s' (root ++ "/" ++ src)
        ∧ is_under_dam root (root ++ "/" ++ src) = false) →
    ∀ p, is_under_dam root p = true →
      l.foldl (file_copy_step root) s p = l.foldl (file_copy_step root) s' p
  | [], s, s', _, hdam, _, p, hp => hdam p hp
  | t :: l, s, s', hslash, hdam, hsources, p, hp => by
    rw [List.foldl_cons, List.foldl_cons]
    have hslash' : ∀ t' ∈ l, strStartsWith t'.path "/" = true :=
      fun t' ht' => hslash t' (List.mem_cons_of_mem _ ht')
    cases ht : t with
    | git a b c d =>
      refine file_fold_agree root lodge l _ _ hslash' hdam ?_ p hp
      intro tp src hm
      exact hsources tp src (List.mem_cons_of_mem _ hm)
    | file tpath0 src0 =>
      have hv : s (root ++ "/" ++ src0) = s' (root ++ "/" ++ src0) :=
        (hsources tpath0 src0 (by rw [← ht]; exact List.mem_cons_self _ _)).1
      refine file_fold_agree root lodge l _ _ hslash' ?_ ?_ p hp
      · intro q hq
        show fs_write s (target_dam_path root tpath0) (s (root ++ "/" ++ src0)) q
          = fs_write s' (target_dam_path root tpath0) (s' (root ++ "/" ++ src0)) q
        unfold fs_write
        by_cases hqk : (q == target_dam_path root tpath0) = true
        · rw [if_pos hqk, if_pos hqk, hv]
        · rw [if_neg hqk, if_neg hqk]
          exact hdam q hq
      · intro tp src hm
        have hrest := hsources tp src (List.mem_cons_of_mem _ hm)
        have hkey : is_under_dam root (target_dam_path root tpath0) = true := by
          apply under_dam_dam_path
          have := hslash t (List.mem_cons_self _ _)
          rw [ht] at this
          exact this
        have hne : ((root ++ "/" ++ src) == target_dam_path root tpath0) = false := by
          cases hx : (root ++ "/" ++ src) == target_dam_path root tpath0
          · rfl
          · rw [beq_iff_eq.1 hx] at hrest
            rw [hkey] at hrest
            exact Bool.noConfusion hrest.2
        constructor
        · show fs_write s (target_dam_path root tpath0) (s (root ++ "/" ++ src0))
            (root ++ "/" ++ src) = fs_write s' (target_dam_path root tpath0)
            (s' (root ++ "/" ++ src0)) (root ++ "/" ++ src)
          unfold fs_write
          rw [if_neg (by simp [hne]), if_neg (by simp [hne])]
          exact hrest.1
        · exact hrest.2

/-- C4: `gather_dam` rebuilds the dam from scratch out of committed state
only.  For two runs over file systems that agree outside the dam and the
lodge (pre-existing dam content and working-tree state may differ
arbitrarily), the rebuilt dam is identical; and every dam entry of the
result is either a committed-tree member of an expanded git target whose
basename is not `.gitignore`, or the copy of a file target's source. -/
theorem c4_gather_dam (root : String) (repos : String → RepoState)
    (lodge : List Target) (fuel : Nat) (fs1 fs2 out1 out2 : String → Option String)
    (h1 : gather_dam root repos lodge fuel fs1 = some out1)
    (h2 : gather_dam root repos lodge fuel fs2 = some out2)
    (htargets : ∀ t ∈ lodge, strStartsWith t.path "/" = true)
    (hagree : ∀ p, is_under_dam root p = false → is_under_lodge root p = false →
      fs1 p = fs2 p)
    (hsrc : ∀ tp src, Target.file tp src ∈ lodge →
      is_under_dam root (root ++ "/" ++ src) = false
        ∧ is_under_lodge root (root ++ "/" ++ src) = false) :
    (∀ p, is_under_dam root p = true → out1 p = out2 p)
    ∧ (∀ p, is_under_dam root p = true → out1 p ≠ none →
        (∃ gts, git_targets_with_submodules repos lodge fuel = some gts
          ∧ ∃ t ∈ gts, ∃ e ∈ (repos t.path).head_tree,
              basename e.1 ≠ ".gitignore"
              ∧ p = target_dam_path root t.path ++ "/" ++ e.1
              ∧ out1 p = some e.2)
        ∨ (∃ tp src, Target.file tp src ∈ lodge ∧ p = target_dam_path root tp
            ∧ out1 p = fs1 (root ++ "/" ++ src))) := by
  obtain ⟨gts, hgts⟩ : ∃ gts, git_targets_with_submodules repos lodge fuel = some gts := by
    unfold gather_dam at h1
    cases hg : git_targets_with_submodules repos lodge fuel with
    | none => rw [hg] at h1; exact Option.noConfusion h1
    | some gts => exact ⟨gts, rfl⟩
  have hout1 : out1 = file_copy_all root lodge
      (git_extract_all root repos gts (dam_delete root fs1)) := by
    unfold gather_dam at h1
    rw [hgts] at h1
    injection h1 with h1b
    exact h1b.symm
  have hout2 : out2 = file_copy_all root lodge
      (git_extract_all root repos gts (dam_delete root fs2)) := by
    unfold gather_dam at h2
    rw [hgts] at h2
    injection h2 with h2b
    exact h2b.symm
  -- expanded targets are slash-rooted
  have hgts_slash : ∀ x ∈ gts, strStartsWith x.path "/" = true := by
    obtain ⟨pre, hpre, hsort⟩ : ∃ pre,
        process_queue repos fuel ((git_targets lodge).map ExpTarget.declared) 0 = some pre
          ∧ gts = sorted_targets ExpTarget.path pre := by
      unfold git_targets_with_submodules at hgts
      cases hproc : process_queue repos fuel
          ((git_targets lodge).map ExpTarget.declared) 0 with
      | none => rw [hproc] at hgts; exact Option.noConfusion hgts
      | some pre =>
        rw [hproc] at hgts
        injection hgts with hq2
        exact ⟨pre, rfl, hq2.symm⟩
    intro x hx
    have hxpre : x ∈ pre := by
      rw [hsort] at hx
      exact ((sorted_targets_perm ExpTarget.path pre).mem_iff).1 hx
    refine process_queue_slash repos fuel _ 0 pre hpre ?_ x hxpre
    intro y hy
    rcases List.mem_map.1 hy with ⟨t, ht, hyeq⟩
    rw [← hyeq]
    have ht2 : t ∈ List.filter Target.is_git lodge := ht
    exact htargets t (List.mem_of_mem_filter ht2)
  -- sorted file list facts
  have hsorted_slash : ∀ t ∈ sorted_targets Target.path lodge,
      strStartsWith t.path "/" = true := by
    intro t ht
    exact htargets t (((sorted_targets_perm Target.path lodge).mem_iff).1 ht)
  have hsorted_src : ∀ tp src, Target.file tp src ∈ sorted_targets Target.path lodge →
      is_under_dam root (root ++ "/" ++ src) = false :=
    fun tp src hm => (hsrc tp src (((sorted_targets_perm Target.path lodge).mem_iff).1 hm)).1
  -- git extraction never touches non-dam paths
  have hgit_off : ∀ (fs : String → Option String) (q : String),
      is_under_dam root q = false →
      git_extract_all root repos gts fs q = fs q := by
    intro fs q hq
    rcases git_extract_all_val root repos gts fs q with h | ⟨t, ht, e, _, _, hpe, _⟩
    · exact h
    · have := under_dam_dam_path_append root t.path ("/" ++ e.1) (hgts_slash t ht)
      rw [show target_dam_path root t.path ++ ("/" ++ e.1)
          = target_dam_path root t.path ++ "/" ++ e.1 from (str_append_assoc _ _ _).symm]
        at this
      rw [← hpe] at this
      rw [this] at hq
      exact Bool.noConfusion hq
  constructor
  · -- identical dam content for the two runs
    intro p hp
    rw [hout1, hout2, file_copy_all_eq_fold, file_copy_all_eq_fold]
    apply file_fold_agree root lodge (sorted_targets Target.path lodge) _ _ hsorted_slash
    · intro q hq
      apply git_extract_all_congr_at
      show dam_delete root fs1 q = dam_delete root fs2 q
      unfold dam_delete
      rw [if_pos hq, if_pos hq]
    · intro tp src hm
      have hsm := hsrc tp src (((sorted_targets_perm Target.path lodge).mem_iff).1 hm)
      constructor
      · have hd1 : dam_delete root fs1 (root ++ "/" ++ src)
            = fs1 (root ++ "/" ++ src) := by
          unfold dam_delete
          rw [if_neg (by simp [hsm.1])]
        have hd2 : dam_delete root fs2 (root ++ "/" ++ src)
            = fs2 (root ++ "/" ++ src) := by
          unfold dam_delete
          rw [if_neg (by simp [hsm.1])]
        rw [hgit_off _ _ hsm.1, hgit_off _ _ hsm.1, hd1, hd2]
        exact hagree _ hsm.1 hsm.2
      · exact hsm.1
    · exact hp
  · -- pedigree of every dam entry
    intro p hp hne
    rw [hout1, file_copy_all_eq_fold] at hne ⊢
    rcases file_fold_val root (sorted_targets Target.path lodge) _ p hsorted_slash
      hsorted_src with h | ⟨tp, src, hmem, hpe, hval⟩
    · rw [h] at hne ⊢
      rcases git_extract_all_val root repos gts (dam_delete root fs1) p
        with h2 | ⟨t, ht, e, he, hgi, hpe, hval⟩
      · rw [h2] at hne
        exfalso
        apply hne
        unfold dam_delete
        rw [if_pos hp]
      · exact Or.inl ⟨gts, hgts, t, ht, e, he, hgi, hpe, hval⟩
    · refine Or.inr ⟨tp, src, ((sorted_targets_perm Target.path lodge).mem_iff).1 hmem, hpe, ?_⟩
      rw [hval]
      have hsm := hsrc tp src (((sorted_targets_perm Target.path lodge).mem_iff).1 hmem)
      rw [hgit_off _ _ hsm.1]
      unfold dam_delete
      rw [if_neg (by simp [hsm.1])]

/-- C4 witness: one git target with a two-entry committed tree (one
`.gitignore`) and one file target; the two runs start from file systems that
differ in stale dam content and lodge working-tree content. -/
theorem c4_gather_dam_witness :
    gather_dam "/r" (fun _ => ⟨"c", [], [("x", "data"), (".gitignore", "ig")], []⟩)
        [Target.git "/a" "u" "v" none, Target.file "/f" "files/h"] 1
        (fun p => if p == "/r/files/h" then some "payload"
          else if p == "/r/dam/stale" then some "old" else none)
      = some (file_copy_all "/r"
          [Target.git "/a" "u" "v" none, Target.file "/f" "files/h"]
          (git_extract_all "/r"
            (fun _ => ⟨"c", [], [("x", "data"), (".gitignore", "ig")], []⟩)
            (sorted_targets ExpTarget.path
              [ExpTarget.declared (Target.git "/a" "u" "v" none)])
            (dam_delete "/r" (fun p => if p == "/r/files/h" then some "payload"
              else if p == "/r/dam/stale" then some "old" else none))))
    ∧ (∀ p, is_under_dam "/r" p = true →
        (gather_dam "/r" (fun _ => ⟨"c", [], [("x", "data"), (".gitignore", "ig")], []⟩)
          [Target.git "/a" "u" "v" none, Target.file "/f" "files/h"] 1
          (fun p => if p == "/r/files/h" then some "payload"
            else if p == "/r/dam/stale" then some "old" else none)).getD (fun _ => none) p
        = (gather_dam "/r" (fun _ => ⟨"c", [], [("x", "data"), (".gitignore", "ig")], []⟩)
          [Target.git "/a" "u" "v" none, Target.file "/f" "files/h"] 1
          (fun p => if p == "/r/files/h" then some "payload"
            else if p == "/r/lodge/a/junk" then some "dirty" else none)).getD
              (fun _ => none) p) := by
  have hone := c4_gather_dam "/r"
    (fun _ => ⟨"c", [], [("x", "data"), (".gitignore", "ig")], []⟩)
    [Target.git "/a" "u" "v" none, Target.file "/f" "files/h"] 1
    (fun p => if p == "/r/files/h" then some "payload"
      else if p == "/r/dam/stale" then some "old" else none)
    (fun p => if p == "/r/files/h" then some "payload"
      else if p == "/r/lodge/a/junk" then some "dirty" else none)
    (file_copy_all "/r" [Target.git "/a" "u" "v" none, Target.file "/f" "files/h"]
      (git_extract_all "/r"
        (fun _ => ⟨"c", [], [("x", "data"), (".gitignore", "ig")], []⟩)
        (sorted_targets ExpTarget.path
          [ExpTarget.declared (Target.git "/a" "u" "v" none)])
        (dam_delete "/r" (fun p => if p == "/r/files/h" then some "payload"
          else if p == "/r/dam/stale" then some "old" else none))))
    (file_copy_all "/r" [Target.git "/a" "u" "v" none, Target.file "/f" "files/h"]
      (git_extract_all "/r"
        (fun _ => ⟨"c", [], [("x", "data"), (".gitignore", "ig")], []⟩)
        (sorted_targets ExpTarget.path
          [ExpTarget.declared (Target.git "/a" "u" "v" none)])
        (dam_delete "/r" (fun p => if p == "/r/files/h" then some "payload"
          else if p == "/r/lodge/a/junk" then some "dirty" else none))))
    rfl rfl
    (by
      intro t ht
      simp only [List.mem_cons] at ht
      rcases ht with h | h | h
      · subst h; decide
      · subst h; decide
      · simp at h)
    (by
      intro p hdam hlodge
      by_cases h1 : (p == "/r/files/h") = true
      · simp only [h1, if_pos]
      · have h2 : (p == "/r/dam/stale") = false := by
          cases hx : p == "/r/dam/stale"
          · rfl
          · rw [show p = "/r/dam/stale" from beq_iff_eq.1 hx] at hdam
            exact absurd hdam (by decide)
        have h3 : (p == "/r/lodge/a/junk") = false := by
          cases hx : p == "/r/lodge/a/junk"
          · rfl
          · rw [show p = "/r/lodge/a/junk" from beq_iff_eq.1 hx] at hlodge
            exact absurd hlodge (by decide)
        simp only [h1, h2, h3]
        rfl)
    (by
      intro tp src hm
      simp only [List.mem_cons] at hm
      rcases hm with h | h | h
      · exact absurd h (by intro hx; exact Target.noConfusion hx)
      · have htp : tp = "/f" ∧ src = "files/h" := by
          injection h with h1 h2
          exact ⟨h1, h2⟩
        rw [htp.2]
        exact ⟨by decide, by decide⟩
      · simp at h)
  refine ⟨rfl, ?_⟩
  intro p hp
  exact hone.1 p hp

end Castor

